import Mathlib

/-!
Verification of the Cloudify captcha OCR service against its design document.

The development shallowly embeds the pure decision logic of the service:
the per-attempt candidate selection of runOcr, the vertical projection
segmentation of runOcrSegmented, the strategy loop and validity test of
handleOcr, and the text normalizer, all from src/index.js and
src/unnamed/part_001 / part_002.  External collaborators (the Jimp image
transforms and the tesseract recognition engine) are modelled as opaque
inputs: preprocessed images are given by their pixel function, and engine
results are parameters of the embedded functions.  JavaScript strings are
modelled as lists of characters and JavaScript numbers as exact rationals.
-/

unseal List.merge List.mergeSort

/-- Translation of the JavaScript idiom `.replace(/[^A-Z]/g, '')` used
throughout the sources: keep only the uppercase letters A to Z. -/
def stripAZ (s : List Char) : List Char := s.filter (fun c => 'A' ≤ c && c ≤ 'Z')

/-- Whitespace characters removed by `String.prototype.trim` that can occur in
the recognition output (space, newline, tab, carriage return). -/
def isJsWs (c : Char) : Bool := c == ' ' || c == '\n' || c == '\t' || c == '\r'

/-- Translation of `String.prototype.trim`: drop leading and trailing whitespace. -/
def jsTrim (s : List Char) : List Char :=
  ((s.dropWhile isJsWs).reverse.dropWhile isJsWs).reverse

/-- Result record of one OCR attempt, `{ text, confidence, error }`, as returned
by runOcr and runOcrSegmented in src/unnamed/part_001.  Confidence is an exact
rational standing for the JavaScript float. -/
structure Cand where
  text : List Char
  confidence : ℚ
  error : Bool
deriving Repr, DecidableEq

/-- Confidence part of the validity test, src/unnamed/part_001 line 304:
`const confOk = result.confidence >= 10 || (result.text && result.text.length === 4);`. -/
def confOkCand (c : Cand) : Bool :=
  decide (10 ≤ c.confidence) || (!c.text.isEmpty && c.text.length == 4)

/-- Validity test of the strategy loop, src/unnamed/part_001 line 305:
`if (result.text && result.text.length > 0 && result.text.length < 12 && confOk)`. -/
def validCand (c : Cand) : Bool :=
  !c.text.isEmpty && decide (0 < c.text.length) && decide (c.text.length < 12)
    && confOkCand c

/-- Strategy loop of handleOcr, src/unnamed/part_001 lines 293 to 312: starting
from `finalResult = ""`, walk the attempt results in strategy order and take the
text of the first one that passes the validity test; `break` afterwards. -/
def strategyLoop : List Cand → List Char
  | [] => []
  | c :: rest => if validCand c then c.text else strategyLoop rest

/-- Strategy loop of handleOcr instrumented with the number of strategies that
were actually run before the loop stopped. -/
def strategyLoopCount : List Cand → List Char × Nat
  | [] => ([], 0)
  | c :: rest =>
    if validCand c then (c.text, 1)
    else
      let r := strategyLoopCount rest
      (r.1, r.2 + 1)

/-- Definition following the words of the specification (section 4.5,
Exhaustion), for comparison with the code: the highest-confidence candidate
seen across all attempts. -/
def bestSoFarSpec : List Cand → Option Cand
  | [] => none
  | c :: rest =>
    match bestSoFarSpec rest with
    | none => some c
    | some b => if b.confidence < c.confidence then some c else some b

/-- Definition following the words of the specification (section 4.5,
Exhaustion): "track the highest-confidence Candidate seen across all attempts;
at the end, return its text only if its confidence exceeds a minimum floor
(seen value: 30), otherwise return an empty string". -/
def exhaustionSpec (results : List Cand) : List Char :=
  match bestSoFarSpec results with
  | none => []
  | some b => if 30 < b.confidence then b.text else []

/-- HTTP responses the handlers produce.  `ok s` stands for
`res.json({ solution: s })` (status 200), `badRequest` for
`res.status(400).json({ error: ... })`, `serverError` for
`res.status(500).json({ error: ... })`. -/
inductive Resp where
  | ok (solution : List Char)
  | badRequest (error : List Char)
  | serverError (error : List Char)
deriving Repr, DecidableEq

/-- HTTP status code of a response. -/
def Resp.status : Resp → Nat
  | .ok _ => 200
  | .badRequest _ => 400
  | .serverError _ => 500

/-- Whether the response JSON object carries a string solution field. -/
def Resp.hasSolution : Resp → Bool
  | .ok _ => true
  | _ => false

/-- JavaScript truthiness of the captcha field: `!req.body.captcha` is true both
when the field is absent and when it is present but the empty string. -/
def captchaFalsy : Option (List Char) → Bool
  | none => true
  | some s => s.isEmpty

/-- Error message of the 400 response in src/index.js line 21. -/
def missingMsg : List Char := "Missing captcha field".toList

/-- Error message of the 500 response in src/index.js line 57. -/
def failedMsg : List Char := "Failed to process captcha".toList

/-- Handler of src/index.js lines 16 to 59 (the basic variant).  The pipeline
(Jimp preprocessing plus one tesseract call) is abstracted as an `Except`
parameter: `.error` when anything in the try-block throws, `.ok t` when the
engine yields raw text `t`; on success the solution is `text.trim()`
(line 50), on a throw the handler answers HTTP 500 (line 57). -/
def handleOcrBasic (captcha : Option (List Char)) (pipeline : Except Unit (List Char)) :
    Resp :=
  if captchaFalsy captcha then
    .badRequest missingMsg
  else
    match pipeline with
    | .error _ => .serverError failedMsg
    | .ok t => .ok (jsTrim t)

/-- Handler of src/unnamed/part_001 lines 257 to 322 (the multi-strategy
variant).  The per-strategy OCR attempts are abstracted as a list of `Cand`
results, one per strategy in strategy order; `.error` models an uncaught throw
anywhere in the pipeline, which the top-level catch (lines 318 to 321) converts
to `{ solution: "" }`.  A missing or empty captcha is answered with
`{ solution: "" }` at lines 263 to 266. -/
def handleOcrMulti (captcha : Option (List Char)) (run : Except Unit (List Cand)) :
    Resp :=
  if captchaFalsy captcha then .ok []
  else
    match run with
    | .error _ => .ok []
    | .ok results => .ok (strategyLoop results)

/-- Multi-strategy handler instrumented with the number of strategies run. -/
def handleOcrMultiCount (captcha : Option (List Char)) (run : Except Unit (List Cand)) :
    Resp × Nat :=
  if captchaFalsy captcha then (.ok [], 0)
  else
    match run with
    | .error _ => (.ok [], 0)
    | .ok results =>
      let r := strategyLoopCount results
      (.ok r.1, r.2)

/-- Counterexample to C1: a single attempt whose candidate has a 12-character
text and confidence 50 fails the validity test, so the loop exhausts.  The
specified exhaustion policy would return the text of this highest-confidence
candidate, its confidence 50 being above the floor 30, but the code returns
the empty string: no best-so-far candidate is tracked anywhere. -/
theorem c1_counterexample :
    validCand ⟨"ABCDEFGHIJKL".toList, 50, false⟩ = false ∧
    strategyLoop [⟨"ABCDEFGHIJKL".toList, 50, false⟩] = [] ∧
    exhaustionSpec [⟨"ABCDEFGHIJKL".toList, 50, false⟩] = "ABCDEFGHIJKL".toList ∧
    strategyLoop [⟨"ABCDEFGHIJKL".toList, 50, false⟩]
      ≠ exhaustionSpec [⟨"ABCDEFGHIJKL".toList, 50, false⟩] := by
  refine ⟨?_, ?_, ?_, ?_⟩ <;> decide

/-- C1 (amended): when no attempt passes the validity test, the strategy loop
of src/unnamed/part_001 returns the empty string, whatever the confidences of
the candidates seen; there is no best-so-far tracking and no confidence floor
of 30 in the code. -/
theorem c1_exhaustion_returns_empty (results : List Cand)
    (h : ∀ c ∈ results, validCand c = false) :
    strategyLoop results = [] := by
  induction results with
  | nil => rfl
  | cons c rest ih =>
    have hc : validCand c = false := h c (List.mem_cons_self c rest)
    simp only [strategyLoop, hc, Bool.false_eq_true, if_false]
    exact ih (fun d hd => h d (List.mem_cons_of_mem c hd))

/-- Witness for c1_exhaustion_returns_empty at a concrete input. -/
theorem c1_exhaustion_returns_empty_witness :
    strategyLoop [⟨"ABCDEFGHIJKL".toList, 50, false⟩] = [] :=
  c1_exhaustion_returns_empty _ (by decide)

/-- Counterexample to C2: in the src/index.js handler, a request whose captcha
is present but whose pipeline raises an uncaught error is answered with HTTP
status 500 and a JSON object that has no solution field. -/
theorem c2_counterexample :
    Resp.status (handleOcrBasic (some "AAAA".toList) (.error ())) = 500 ∧
    Resp.hasSolution (handleOcrBasic (some "AAAA".toList) (.error ())) = false := by
  refine ⟨?_, ?_⟩ <;> decide

/-- C2 (amended): the multi-strategy handler of src/unnamed/part_001 always
responds with status 200 and a string solution field, and converts any uncaught
pipeline error to `{ solution: "" }`; the basic src/index.js variant instead
answers an uncaught error with HTTP 500 and no solution field (see
c2_counterexample). -/
theorem c2_multi_always_solution (captcha : Option (List Char))
    (run : Except Unit (List Cand)) :
    Resp.status (handleOcrMulti captcha run) = 200 ∧
    Resp.hasSolution (handleOcrMulti captcha run) = true ∧
    handleOcrMulti captcha (Except.error ()) = Resp.ok [] := by
  unfold handleOcrMulti
  rcases run with e | results <;>
    by_cases hc : captchaFalsy captcha <;>
      simp [hc, Resp.status, Resp.hasSolution]

/-- Default candidate used with getD in index-based statements. -/
def dfltCand : Cand := ⟨[], 0, false⟩

/-- C3 (confirmed): the strategy loop evaluates attempts strictly in list order
and stops at the first candidate passing the validity test; exactly i + 1
strategies are run when the first passing candidate is at index i, so no later
strategy is ever run after a candidate is accepted. -/
theorem c3_short_circuit (results : List Cand) (i : Nat)
    (hi : i < results.length)
    (hvalid : validCand (results.getD i dfltCand) = true)
    (hbefore : ∀ j, j < i → validCand (results.getD j dfltCand) = false) :
    strategyLoopCount results = ((results.getD i dfltCand).text, i + 1) := by
  induction results generalizing i with
  | nil => exact absurd hi (Nat.not_lt_zero i)
  | cons c rest ih =>
    cases i with
    | zero =>
      simp only [List.getD_cons_zero] at hvalid ⊢
      simp only [strategyLoopCount, hvalid, if_true]
    | succ n =>
      have hc : validCand c = false := by
        have := hbefore 0 (Nat.succ_pos n)
        simpa using this
      have hn : n < rest.length := by
        simpa [Nat.succ_lt_succ_iff] using hi
      have hvalid' : validCand (rest.getD n dfltCand) = true := by
        simpa using hvalid
      have hbefore' : ∀ j, j < n → validCand (rest.getD j dfltCand) = false := by
        intro j hj
        have := hbefore (j + 1) (Nat.succ_lt_succ hj)
        simpa using this
      simp only [strategyLoopCount, hc, Bool.false_eq_true, if_false,
        List.getD_cons_succ]
      rw [ih n hn hvalid' hbefore']

/-- Witness for c3_short_circuit: with an invalid first attempt and a valid
second attempt, exactly two strategies run and the second text is returned. -/
theorem c3_short_circuit_witness :
    strategyLoopCount [⟨"X".toList, 5, false⟩, ⟨"ABCD".toList, 50, false⟩]
      = ("ABCD".toList, 2) :=
  c3_short_circuit [⟨"X".toList, 5, false⟩, ⟨"ABCD".toList, 50, false⟩] 1
    (by decide) (by decide) (by decide)

/-- C10 (confirmed): a request whose captcha field is present but equal to the
empty string is treated identically to a missing field by both handler
variants: the multi-strategy handler answers `{ solution: "" }` running zero
strategies, and the basic handler answers the 400 missing-captcha error, in
both cases independently of the pipeline. -/
theorem c10_empty_captcha (run : Except Unit (List Cand))
    (p : Except Unit (List Char)) :
    handleOcrMultiCount (some []) run = handleOcrMultiCount none run ∧
    handleOcrMultiCount (some []) run = (Resp.ok [], 0) ∧
    handleOcrBasic (some []) p = handleOcrBasic none p ∧
    handleOcrBasic (some []) p = Resp.badRequest missingMsg := by
  refine ⟨rfl, rfl, rfl, rfl⟩

/-- Test for an occurrence of the four letters S V N G at the head of the
list, used below to translate `t.includes('SVNG')`. -/
def svngAt : List Char → Bool
  | a :: b :: c :: d :: _ => a == 'S' && b == 'V' && c == 'N' && d == 'G'
  | _ => false

/-- Translation of `t.includes('SVNG')` from src/unnamed/part_002 line 127:
does the string contain SVNG as a contiguous substring. -/
def containsSVNG : List Char → Bool
  | [] => false
  | c :: rest => svngAt (c :: rest) || containsSVNG rest

/-- Translation of `t.startsWith('C')`. -/
def headIsC (t : List Char) : Bool := t.head? == some 'C'

/-- Translation of `t.endsWith('E')`. -/
def lastIsE (t : List Char) : Bool := t.getLast? == some 'E'

/-- Text normalizer of src/unnamed/part_002 lines 121 to 135 (there called
normalize; renamed here because Mathlib already uses that name): strip to A to
Z, return the empty string for an empty strip, special-case strings containing
SVNG and the exact string CATLE, then drop a leading C when the text is longer
than 4 characters, starts with C, ends with E and the remainder has length
exactly 4; otherwise return the stripped text unchanged. -/
def normalizeText (raw : List Char) : List Char :=
  let t := stripAZ (raw.map Char.toUpper)
  if t.isEmpty then []
  else if containsSVNG t then "SVNG".toList
  else if t = "CATLE".toList then "ATLK".toList
  else if 4 < t.length ∧ headIsC t ∧ lastIsE t then
    let sub := t.drop 1
    if sub.length = 4 then sub else t
  else t

/-- Counterexample to C8: the input CATLE satisfies every condition of the
claim (already stripped, length 5, starts with C, ends with E, and the
substring after the leading C has length exactly 4), yet the normalizer
returns ATLK through its special-case table, not the substring ATLE. -/
theorem c8_counterexample :
    (4 < ("CATLE".toList).length ∧ headIsC "CATLE".toList = true ∧
      lastIsE "CATLE".toList = true ∧ (("CATLE".toList).drop 1).length = 4) ∧
    normalizeText "CATLE".toList = "ATLK".toList ∧
    normalizeText "CATLE".toList ≠ ("CATLE".toList).drop 1 := by
  refine ⟨?_, ?_, ?_⟩ <;> decide

/-- Helper: a five character string that starts with C and ends with E cannot
contain SVNG as a contiguous substring. -/
theorem containsSVNG_CxxxE (a b c : Char) :
    containsSVNG ['C', a, b, c, 'E'] = false := by
  simp [containsSVNG, svngAt]

/-- C8 (amended): for every input whose strip to A to Z has length greater
than 4, starts with C, ends with E, and whose substring after dropping the
leading C has length exactly 4, the normalizer returns that substring, except
for the one special-cased input CATLE, which is mapped to ATLK instead. -/
theorem c8_normalize_drops_leading_C (raw : List Char)
    (hlen : 4 < (stripAZ (raw.map Char.toUpper)).length)
    (hhead : headIsC (stripAZ (raw.map Char.toUpper)) = true)
    (hlast : lastIsE (stripAZ (raw.map Char.toUpper)) = true)
    (hsub : ((stripAZ (raw.map Char.toUpper)).drop 1).length = 4)
    (hne : stripAZ (raw.map Char.toUpper) ≠ "CATLE".toList) :
    normalizeText raw = (stripAZ (raw.map Char.toUpper)).drop 1 := by
  simp only [normalizeText]
  revert hlen hhead hlast hsub hne
  generalize stripAZ (List.map Char.toUpper raw) = t
  intro hlen hhead hlast hsub hne
  have hlen5 : t.length = 5 := by
    have := List.length_drop 1 t
    omega
  obtain ⟨c0, t1, rfl⟩ : ∃ c0 t1, t = c0 :: t1 := by
    cases t with
    | nil => simp at hlen5
    | cons x xs => exact ⟨x, xs, rfl⟩
  obtain ⟨c1, t2, rfl⟩ : ∃ c1 t2, t1 = c1 :: t2 := by
    cases t1 with
    | nil => simp at hlen5
    | cons x xs => exact ⟨x, xs, rfl⟩
  obtain ⟨c2, t3, rfl⟩ : ∃ c2 t3, t2 = c2 :: t3 := by
    cases t2 with
    | nil => simp at hlen5
    | cons x xs => exact ⟨x, xs, rfl⟩
  obtain ⟨c3, t4, rfl⟩ : ∃ c3 t4, t3 = c3 :: t4 := by
    cases t3 with
    | nil => simp at hlen5
    | cons x xs => exact ⟨x, xs, rfl⟩
  obtain ⟨c4, t5, rfl⟩ : ∃ c4 t5, t4 = c4 :: t5 := by
    cases t4 with
    | nil => simp at hlen5
    | cons x xs => exact ⟨x, xs, rfl⟩
  have ht5 : t5 = [] := by
    simpa using hlen5
  subst ht5
  have hc0 : c0 = 'C' := by
    simpa [headIsC] using hhead
  have hc4 : c4 = 'E' := by
    simpa [lastIsE, List.getLast?] using hlast
  subst hc0
  subst hc4
  have hsvng : containsSVNG ['C', c1, c2, c3, 'E'] = false :=
    containsSVNG_CxxxE c1 c2 c3
  simp only [List.isEmpty_cons, Bool.false_eq_true, if_false, hsvng]
  rw [if_neg hne]
  rw [if_pos ⟨hlen, hhead, hlast⟩]
  simp [hsub]

/-- Witness for c8_normalize_drops_leading_C at the concrete input CHTWE. -/
theorem c8_normalize_drops_leading_C_witness :
    normalizeText "CHTWE".toList = "HTWE".toList :=
  c8_normalize_drops_leading_C "CHTWE".toList (by decide) (by decide) (by decide)
    (by decide) (by decide)

/-- Word entry of a tesseract result, `{ text, confidence }`. -/
structure WordC where
  text : List Char
  confidence : ℚ
deriving Repr, DecidableEq

/-- Symbol entry of a tesseract result with the bounding-box fields the code
reads: `bbox.h`, the pair `bbox.y0` / `bbox.y1`, `bbox.x` and `bbox.x0`.
The code tests each with `typeof ... === 'number'`, so absent fields are
`none` here (the fallback `s.bbox || s` of line 98 is absorbed into these
option fields). -/
structure SymC where
  text : List Char
  confidence : ℚ
  hOpt : Option Nat
  ys : Option (Int × Int)
  xOpt : Option Int
  x0Opt : Option Int
deriving Repr, DecidableEq

/-- Full recognition result of one tesseract call as read by runOcr,
src/unnamed/part_001 line 75: `data.text`, `data.confidence`, `data.words`
and `data.symbols`. -/
structure TessData where
  text : List Char
  confidence : ℚ
  words : List WordC
  symbols : List SymC

/-- Prepared symbol of src/unnamed/part_001 lines 94 to 99: the uppercased
single character, its confidence and its bounding-box fields. -/
structure RawSym where
  ch : Char
  conf : ℚ
  hOpt : Option Nat
  ys : Option (Int × Int)
  xOpt : Option Int
  x0Opt : Option Int
deriving Repr, DecidableEq

/-- Translation of the test `/^[A-Z]$/.test(s.ch)` of line 99: the text is one
single character in the range A to Z. -/
def isSingleAZ : List Char → Option Char
  | [c] => if 'A' ≤ c ∧ c ≤ 'Z' then some c else none
  | _ => none

/-- Symbol preparation of src/unnamed/part_001 lines 94 to 99: uppercase each
symbol text and keep only those that are a single letter A to Z. -/
def rawSyms (symbols : List SymC) : List RawSym :=
  symbols.filterMap fun s =>
    (isSingleAZ (s.text.map Char.toUpper)).map fun c =>
      ⟨c, s.confidence, s.hOpt, s.ys, s.xOpt, s.x0Opt⟩

/-- Height of a symbol read from its bounding box, src/unnamed/part_001 lines
101 to 105: `bbox.h` when present, else the absolute difference of `y1` and
`y0` when both present, else 0. -/
def heightOf (s : RawSym) : Nat :=
  match s.hOpt with
  | some h => h
  | none =>
    match s.ys with
    | some p => (p.2 - p.1).natAbs
    | none => 0

/-- Median as the sources compute it, src/unnamed/part_001 lines 107 to 108:
the entry at index floor(length / 2) of the ascending sort, 0 when empty. -/
def medianNat (l : List Nat) : Nat :=
  let sorted := l.mergeSort fun a b => decide (a ≤ b)
  sorted.getD (sorted.length / 2) 0

/-- Median of the positive bounding-box heights of the prepared symbols,
src/unnamed/part_001 lines 101 to 108. -/
def medianHOf (raw : List RawSym) : Nat :=
  medianNat ((raw.map heightOf).filter fun h => decide (0 < h))

/-- Positioned symbol of src/unnamed/part_001 lines 111 to 116: the height
used by the filter is `bbox.h` when present and otherwise defaults to the
median height; the horizontal position is `bbox.x`, else `bbox.x0`, else 0. -/
structure PosSym where
  ch : Char
  conf : ℚ
  h : Nat
  x : Int
deriving Repr, DecidableEq

/-- Construction of the positioned symbols, src/unnamed/part_001 lines 111
to 116. -/
def positionedOf (raw : List RawSym) (medianH : Nat) : List PosSym :=
  raw.map fun s =>
    ⟨s.ch, s.conf, s.hOpt.getD medianH,
      match s.xOpt with
      | some x => x
      | none => s.x0Opt.getD 0⟩

/-- Selection filter and left-to-right sort of src/unnamed/part_001 lines 118
to 120: keep positioned symbols whose confidence is at least 10 (minConf of
line 109) and, when the median height is nonzero, whose filter height is at
least 0.6 times the median (the float comparison `s.h >= medianH * 0.6` is
read exactly as the rational inequality 5 * h >= 3 * medianH); then sort by
horizontal position (a stable sort, as Array.prototype.sort). -/
def selectedOf (symbols : List SymC) : List PosSym :=
  let raw := rawSyms symbols
  let medianH := medianHOf raw
  ((positionedOf raw medianH).filter fun s =>
      decide (10 ≤ s.conf) &&
        (if medianH = 0 then true else decide (3 * medianH ≤ 5 * s.h))).mergeSort
    fun a b => decide (a.x ≤ b.x)

/-- Symbol-stage candidate string, src/unnamed/part_001 lines 122 to 127:
concatenate the selected characters left to right, then drop a leading C read
with confidence below 12 when at least two symbols survive. -/
def symbolCandidate (symbols : List SymC) : List Char :=
  let selected := selectedOf symbols
  match selected with
  | s0 :: s1 :: rest =>
    if s0.ch = 'C' ∧ s0.conf < 12 then (s1 :: rest).map (·.ch)
    else selected.map (·.ch)
  | _ => selected.map (·.ch)

/-- Average confidence of the selected symbols, src/unnamed/part_001
line 123 (0 when none survive). -/
def avgConf (l : List PosSym) : ℚ :=
  if l.isEmpty then 0 else (l.map (·.conf)).sum / l.length

/-- Length bonus of src/unnamed/part_001 line 129: +10 for length 4, +6 for
5, +4 for 6, +2 for 3, else 0. -/
def lenBonus (n : Nat) : ℚ :=
  if n = 4 then 10 else if n = 5 then 6 else if n = 6 then 4 else
    if n = 3 then 2 else 0

/-- Word stage of runOcr, src/unnamed/part_001 lines 82 to 92: strip each
word, keep lengths 3 to 10, sort by descending confidence (stable) and let
the best word replace the baseline when its confidence is at least the
baseline confidence. -/
def wordsStage (ws : List WordC) (bt : List Char) (bc : ℚ) : List Char × ℚ :=
  if ws.isEmpty then (bt, bc)
  else
    let candidates :=
      (ws.map fun w => WordC.mk (stripAZ (w.text.map Char.toUpper)) w.confidence).filter
        fun c => decide (3 ≤ c.text.length) && decide (c.text.length ≤ 10)
    let sorted := candidates.mergeSort fun a b => decide (b.confidence ≤ a.confidence)
    match sorted with
    | [] => (bt, bc)
    | c :: _ => if bc ≤ c.confidence then (c.text, c.confidence) else (bt, bc)

/-- Symbol stage of runOcr, src/unnamed/part_001 lines 94 to 137: build the
symbol candidate, score it against the current baseline (average confidence
plus length bonus against baseline confidence plus 10 when the baseline has
length 4) and let it replace the baseline when its length is 3 to 10 and its
score is at least the baseline score. -/
def symbolStage (symbols : List SymC) (bt : List Char) (bc : ℚ) : List Char × ℚ :=
  if symbols.isEmpty then (bt, bc)
  else
    let selected := selectedOf symbols
    let candidate := symbolCandidate symbols
    let avgConfSel := avgConf selected
    let candidateScore := avgConfSel + lenBonus candidate.length
    let bestScore := bc + (if bt.length = 4 then 10 else 0)
    if 3 ≤ candidate.length ∧ candidate.length ≤ 10 ∧ bestScore ≤ candidateScore then
      (candidate, avgConfSel)
    else (bt, bc)

/-- Candidate selection of runOcr, src/unnamed/part_001 lines 78 to 140: start
from the stripped full text with the full confidence as baseline, refine by
the best plausible word, then by the symbol-stage candidate. -/
def runOcrSelect (d : TessData) : Cand :=
  let baseText := jsTrim (stripAZ (d.text.map Char.toUpper))
  let r1 := wordsStage d.words baseText d.confidence
  let r2 := symbolStage d.symbols r1.1 r1.2
  ⟨r2.1, r2.2, false⟩

/-- Characters surviving stripAZ lie in the range A to Z. -/
theorem stripAZ_mem {c : Char} {l : List Char} (h : c ∈ stripAZ l) :
    'A' ≤ c ∧ c ≤ 'Z' := by
  simp only [stripAZ, List.mem_filter, Bool.and_eq_true, decide_eq_true_eq] at h
  exact h.2

/-- jsTrim only removes characters. -/
theorem jsTrim_subset {c : Char} {l : List Char} (h : c ∈ jsTrim l) : c ∈ l := by
  simp only [jsTrim, List.mem_reverse] at h
  have h1 := (List.dropWhile_sublist isJsWs).subset h
  rw [List.mem_reverse] at h1
  exact (List.dropWhile_sublist isJsWs).subset h1

/-- A symbol accepted by isSingleAZ is a letter A to Z. -/
theorem isSingleAZ_AZ {l : List Char} {c : Char} (h : isSingleAZ l = some c) :
    'A' ≤ c ∧ c ≤ 'Z' := by
  match l with
  | [] => simp [isSingleAZ] at h
  | [a] =>
    simp only [isSingleAZ] at h
    split at h
    next hcond =>
      injection h with h2
      exact h2 ▸ hcond
    next => exact Option.noConfusion h
  | a :: b :: rest => simp [isSingleAZ] at h

/-- Every prepared symbol carries a letter A to Z. -/
theorem rawSyms_AZ {symbols : List SymC} {r : RawSym} (h : r ∈ rawSyms symbols) :
    'A' ≤ r.ch ∧ r.ch ≤ 'Z' := by
  simp only [rawSyms, List.mem_filterMap] at h
  obtain ⟨s, hs, hmap⟩ := h
  rw [Option.map_eq_some'] at hmap
  obtain ⟨c, hc, hr⟩ := hmap
  rw [← hr]
  exact isSingleAZ_AZ hc

/-- Membership in the positioned list comes from a prepared symbol. -/
theorem positionedOf_mem {raw : List RawSym} {med : Nat} {s : PosSym}
    (h : s ∈ positionedOf raw med) :
    ∃ r ∈ raw, s.ch = r.ch ∧ s.conf = r.conf ∧ s.h = r.hOpt.getD med := by
  simp only [positionedOf, List.mem_map] at h
  obtain ⟨r, hr, heq⟩ := h
  exact ⟨r, hr, by rw [← heq], by rw [← heq], by rw [← heq]⟩

/-- A selected symbol is a positioned symbol that passed the confidence
filter and, when the median height is nonzero, the height filter. -/
theorem selectedOf_inv {symbols : List SymC} {s : PosSym}
    (h : s ∈ selectedOf symbols) :
    s ∈ positionedOf (rawSyms symbols) (medianHOf (rawSyms symbols)) ∧
    10 ≤ s.conf ∧
    (medianHOf (rawSyms symbols) = 0 ∨
      3 * medianHOf (rawSyms symbols) ≤ 5 * s.h) := by
  simp only [selectedOf] at h
  rw [List.mem_mergeSort] at h
  have h2 := List.mem_filter.mp h
  have h3 := h2.2
  rw [Bool.and_eq_true] at h3
  refine ⟨h2.1, of_decide_eq_true h3.1, ?_⟩
  by_cases hm : medianHOf (rawSyms symbols) = 0
  · exact Or.inl hm
  · right
    have h4 := h3.2
    rw [if_neg hm] at h4
    exact of_decide_eq_true h4

/-- Every selected symbol carries a letter A to Z. -/
theorem selectedOf_ch_AZ {symbols : List SymC} {s : PosSym}
    (h : s ∈ selectedOf symbols) : 'A' ≤ s.ch ∧ s.ch ≤ 'Z' := by
  obtain ⟨hp, -, -⟩ := selectedOf_inv h
  obtain ⟨r, hr, hch, -, -⟩ := positionedOf_mem hp
  rw [hch]
  exact rawSyms_AZ hr

/-- Every character of the symbol-stage candidate is a letter A to Z. -/
theorem symbolCandidate_AZ (symbols : List SymC) :
    ∀ c ∈ symbolCandidate symbols, 'A' ≤ c ∧ c ≤ 'Z' := by
  intro c hc
  simp only [symbolCandidate] at hc
  cases hsel : selectedOf symbols with
  | nil => rw [hsel] at hc; simp at hc
  | cons s0 tail =>
    cases tail with
    | nil =>
      rw [hsel] at hc
      simp only [List.map_cons, List.map_nil, List.mem_cons,
        List.not_mem_nil, or_false] at hc
      rw [hc]
      exact selectedOf_ch_AZ (hsel ▸ List.mem_cons_self s0 [])
    | cons s1 rest =>
      rw [hsel] at hc
      simp only [] at hc
      have hmem : ∀ s : PosSym, s ∈ s0 :: s1 :: rest → 'A' ≤ s.ch ∧ s.ch ≤ 'Z' :=
        fun s hs => selectedOf_ch_AZ (hsel ▸ hs)
      split at hc
      · rw [List.mem_map] at hc
        obtain ⟨s, hs, rfl⟩ := hc
        exact hmem s (List.mem_cons_of_mem s0 hs)
      · rw [List.mem_map] at hc
        obtain ⟨s, hs, rfl⟩ := hc
        exact hmem s hs

/-- The word stage returns either the baseline or a stripped word text. -/
theorem wordsStage_shape (ws : List WordC) (bt : List Char) (bc : ℚ) :
    (wordsStage ws bt bc).1 = bt ∨
    ∃ w ∈ ws, (wordsStage ws bt bc).1 = stripAZ (w.text.map Char.toUpper) := by
  unfold wordsStage
  cases hws : ws.isEmpty with
  | true => left; simp
  | false =>
    simp only [Bool.false_eq_true, if_false]
    cases hms : ((ws.map fun w =>
        WordC.mk (stripAZ (w.text.map Char.toUpper)) w.confidence).filter
          fun c => decide (3 ≤ c.text.length) && decide (c.text.length ≤ 10)).mergeSort
        (fun a b => decide (b.confidence ≤ a.confidence)) with
    | nil => left; rfl
    | cons w rest =>
      by_cases hbc : bc ≤ w.confidence
      · right
        have hw : w ∈ (ws.map fun w =>
            WordC.mk (stripAZ (w.text.map Char.toUpper)) w.confidence).filter
              fun c => decide (3 ≤ c.text.length) && decide (c.text.length ≤ 10) := by
          have hper := List.mergeSort_perm ((ws.map fun w =>
              WordC.mk (stripAZ (w.text.map Char.toUpper)) w.confidence).filter
                fun c => decide (3 ≤ c.text.length) && decide (c.text.length ≤ 10))
            fun a b => decide (b.confidence ≤ a.confidence)
          refine hper.subset ?_
          rw [hms]
          exact List.mem_cons_self w rest
        have hw2 := (List.mem_filter.mp hw).1
        rw [List.mem_map] at hw2
        obtain ⟨w0, hw0, hweq⟩ := hw2
        refine ⟨w0, hw0, ?_⟩
        simp only [if_pos hbc]
        rw [← hweq]
      · left
        simp only [if_neg hbc]

/-- The symbol stage returns either the baseline or the symbol candidate. -/
theorem symbolStage_shape (symbols : List SymC) (bt : List Char) (bc : ℚ) :
    (symbolStage symbols bt bc).1 = bt ∨
    (symbolStage symbols bt bc).1 = symbolCandidate symbols := by
  unfold symbolStage
  split
  · left; rfl
  · split
    · dsimp only
      split
      · right; rfl
      · left; rfl
    · dsimp only
      split
      · right; rfl
      · left; rfl

/-- Counterexample to C4: the basic src/index.js handler returns the engine
text only trimmed, so a recognition output with an inner space yields a
non-empty solution containing a character that is not an uppercase letter. -/
theorem c4_counterexample :
    handleOcrBasic (some "AAAA".toList) (Except.ok ['A', 'B', ' ', 'C', 'D', '\n'])
      = Resp.ok ['A', 'B', ' ', 'C', 'D'] ∧
    ' ' ∈ ['A', 'B', ' ', 'C', 'D'] ∧
    ¬ ('A' ≤ ' ' ∧ ' ' ≤ 'Z') := by
  refine ⟨?_, ?_, ?_⟩ <;> decide

/-- Every character of the candidate text produced by the whole-image runOcr
selection of src/unnamed/part_001 is an uppercase letter A to Z. -/
theorem runOcrSelect_only_AZ (d : TessData) :
    ∀ c ∈ (runOcrSelect d).text, 'A' ≤ c ∧ c ≤ 'Z' := by
  intro c hc
  simp only [runOcrSelect] at hc
  rcases symbolStage_shape d.symbols
      (wordsStage d.words (jsTrim (stripAZ (d.text.map Char.toUpper))) d.confidence).1
      (wordsStage d.words (jsTrim (stripAZ (d.text.map Char.toUpper))) d.confidence).2
    with h | h
  · rw [h] at hc
    rcases wordsStage_shape d.words (jsTrim (stripAZ (d.text.map Char.toUpper)))
        d.confidence with h2 | ⟨w, hw, h2⟩
    · rw [h2] at hc
      exact stripAZ_mem (jsTrim_subset hc)
    · rw [h2] at hc
      exact stripAZ_mem hc
  · rw [h] at hc
    exact symbolCandidate_AZ d.symbols c hc

/-- Counterexample to C6: a symbol whose bounding box has no explicit height
field contributes its y-span to the median computation but is assigned the
median as its filter height, so it survives the filter and appears in the
candidate even though its bounding-box height (10) is far below 0.6 times the
median (0.6 times 100 is 60). -/
theorem c6_counterexample :
    medianHOf (rawSyms [
      ⟨['Q'], 90, none, some (0, 10), some 0, none⟩,
      ⟨['A'], 90, some 100, none, some 10, none⟩,
      ⟨['B'], 90, some 100, none, some 20, none⟩,
      ⟨['D'], 90, some 100, none, some 30, none⟩]) = 100 ∧
    heightOf ⟨'Q', 90, none, some (0, 10), some 0, none⟩ = 10 ∧
    5 * 10 < 3 * 100 ∧
    symbolCandidate [
      ⟨['Q'], 90, none, some (0, 10), some 0, none⟩,
      ⟨['A'], 90, some 100, none, some 10, none⟩,
      ⟨['B'], 90, some 100, none, some 20, none⟩,
      ⟨['D'], 90, some 100, none, some 30, none⟩] = ['Q', 'A', 'B', 'D'] := by
  refine ⟨?_, ?_, ?_, ?_⟩ <;> decide

/-- C6 (amended): when the median bounding-box height of the prepared symbols
is nonzero, every selected symbol has confidence at least 10 and filter height
at least 0.6 times that median, where the filter height is the explicit
bounding-box height field when present and the median itself otherwise (so a
symbol whose height comes only from its y-span can evade the height filter,
see c6_counterexample); when the median is 0 the height filter is disabled
and membership is decided by the confidence filter alone. -/
theorem c6_median_height_filter (symbols : List SymC) :
    (medianHOf (rawSyms symbols) ≠ 0 →
      ∀ s ∈ selectedOf symbols,
        10 ≤ s.conf ∧ 3 * medianHOf (rawSyms symbols) ≤ 5 * s.h) ∧
    (medianHOf (rawSyms symbols) = 0 →
      ∀ s : PosSym, s ∈ selectedOf symbols ↔
        s ∈ positionedOf (rawSyms symbols) 0 ∧ 10 ≤ s.conf) := by
  constructor
  · intro hm s hs
    obtain ⟨-, hconf, hh⟩ := selectedOf_inv hs
    exact ⟨hconf, hh.resolve_left hm⟩
  · intro hm s
    simp only [selectedOf, List.mem_mergeSort, List.mem_filter, hm, if_pos,
      Bool.and_true, decide_eq_true_eq]

/-- Witness for c6_median_height_filter at a concrete symbol list. -/
theorem c6_median_height_filter_witness :
    10 ≤ (90 : ℚ) ∧
    3 * medianHOf (rawSyms [
      ⟨['A'], 90, some 100, none, some 10, none⟩,
      ⟨['B'], 90, some 100, none, some 20, none⟩,
      ⟨['D'], 90, some 100, none, some 30, none⟩]) ≤ 5 * 100 :=
  (c6_median_height_filter [
      ⟨['A'], 90, some 100, none, some 10, none⟩,
      ⟨['B'], 90, some 100, none, some 20, none⟩,
      ⟨['D'], 90, some 100, none, some 30, none⟩]).1
    (by decide) ⟨'A', 90, 100, 10⟩ (by decide)

/-- C7 (confirmed): whenever the leftmost surviving symbol is a C with
confidence below 12 and at least two symbols survive, the leading C is
dropped from the symbol-stage candidate; in particular the symbol list C
(confidence 5), A, T, L, K (confidence 90 each) yields ATLK, not CATLK (in
that instance the C is already removed by the minimum-confidence filter). -/
theorem c7_leading_C_dropped :
    (∀ (symbols : List SymC) (s0 s1 : PosSym) (rest : List PosSym),
      selectedOf symbols = s0 :: s1 :: rest →
      s0.ch = 'C' → s0.conf < 12 →
      symbolCandidate symbols = (s1 :: rest).map (fun s => s.ch)) ∧
    symbolCandidate [
      ⟨['C'], 5, some 50, none, some 0, none⟩,
      ⟨['A'], 90, some 50, none, some 10, none⟩,
      ⟨['T'], 90, some 50, none, some 20, none⟩,
      ⟨['L'], 90, some 50, none, some 30, none⟩,
      ⟨['K'], 90, some 50, none, some 40, none⟩] = "ATLK".toList := by
  constructor
  · intro symbols s0 s1 rest hsel hch hconf
    simp only [symbolCandidate]
    rw [hsel]
    simp only []
    rw [if_pos ⟨hch, hconf⟩]
  · decide

/-- Witness for the general part of c7_leading_C_dropped: a leading C with
confidence 11 (above the confidence filter, below 12) is dropped. -/
theorem c7_leading_C_dropped_witness :
    symbolCandidate [⟨['C'], 11, some 50, none, some 0, none⟩,
      ⟨['A'], 90, some 50, none, some 10, none⟩] = ['A'] :=
  c7_leading_C_dropped.1 _ ⟨'C', 11, 50, 0⟩ ⟨'A', 90, 50, 10⟩ []
    (by decide) (by decide) (by decide)

/-- Raw segment of the projection scan, `{ start, end, width }` of
src/unnamed/part_001 line 185 (end is reserved in Lean, renamed stop). -/
structure Seg where
  start : Nat
  stop : Nat
  width : Nat
deriving Repr, DecidableEq

/-- Preprocessed greyscale image of runOcrSegmented: dimensions and the pixel
value (0 to 255) at column x, row y, as read from the red channel of the RGBA
buffer at src/unnamed/part_001 lines 163 to 171. -/
structure GreyImg where
  width : Nat
  height : Nat
  pixel : Nat → Nat → Nat

/-- Vertical ink projection of src/unnamed/part_001 lines 166 to 175: for a
column x, the number of rows whose pixel value is below 128. -/
def projOf (img : GreyImg) (x : Nat) : Nat :=
  ((List.range img.height).filter fun y => decide (img.pixel x y < 128)).length

/-- Row-activity threshold of line 176, `Math.max(1, Math.floor(h * 0.02))`;
floor(h * 0.02) is read exactly as h / 50. -/
def rowThreshOf (h : Nat) : Nat := max 1 (h / 50)

/-- Width threshold of line 185, `Math.max(6, Math.floor(w * 0.02))`;
floor(w * 0.02) is read exactly as w / 50. -/
def wThreshOf (w : Nat) : Nat := max 6 (w / 50)

/-- Ink-column test of line 180: `proj[x] > th`. -/
def isInkCol (img : GreyImg) (x : Nat) : Bool :=
  decide (rowThreshOf img.height < projOf img x)

/-- One step of the column scan of src/unnamed/part_001 lines 179 to 188: the
state is the optional start of the current ink run plus the kept segments; a
run is flushed at the first background column, keeping the segment only when
its width reaches the width threshold. -/
def scanStep (wTh : Nat) (ink : Nat → Bool) (acc : Option Nat × List Seg) (x : Nat) :
    Option Nat × List Seg :=
  match acc with
  | (none, segs) => if ink x then (some x, segs) else (none, segs)
  | (some s, segs) =>
    if ink x then (some s, segs)
    else
      (none, if wTh ≤ x - 1 - s + 1 then segs ++ [⟨s, x - 1, x - 1 - s + 1⟩] else segs)

/-- Column scan of src/unnamed/part_001 lines 177 to 193: fold the scan step
over columns 0 to w - 1, then flush a run still open at the right edge
(lines 189 to 193). -/
def segScan (w : Nat) (wTh : Nat) (ink : Nat → Bool) : List Seg :=
  match (List.range w).foldl (scanStep wTh ink) (none, []) with
  | (none, segs) => segs
  | (some s, segs) =>
    if wTh ≤ w - 1 - s + 1 then segs ++ [⟨s, w - 1, w - 1 - s + 1⟩] else segs

/-- Merge walk of src/unnamed/part_001 lines 195 to 207: adjacent segments
whose gap is at most 3 columns are merged. -/
def mergeRun : Seg → List Seg → List Seg
  | curr, [] => [curr]
  | curr, s :: rest =>
    if (s.start : Int) - curr.stop ≤ 3 then
      mergeRun ⟨curr.start, s.stop, s.stop - curr.start + 1⟩ rest
    else curr :: mergeRun s rest

/-- Conditional merge of src/unnamed/part_001 lines 194 to 209: only applied
when more than 6 segments were found. -/
def afterMerge (segs : List Seg) : List Seg :=
  if 6 < segs.length then
    match segs with
    | [] => []
    | s :: rest => mergeRun s rest
  else segs

/-- Sort and glyph-count choice of src/unnamed/part_001 lines 210 to 212:
sort the segments by start column (stable) and take min(5, max(4, count))
of them. -/
def chosenSegs (segs : List Seg) : List Seg :=
  let sorted := segs.mergeSort fun a b => decide (a.start ≤ b.start)
  sorted.take (min 5 (max 4 segs.length))

/-- Letter recorded for one chosen segment, `{ ch, conf, width }` of
src/unnamed/part_001 line 232. -/
structure GlyphL where
  ch : Char
  conf : ℚ
  width : Nat
deriving Repr, DecidableEq

/-- Per-glyph recognition loop of src/unnamed/part_001 lines 223 to 233.  The
engine call on the crop of a segment is abstracted by the oracle, which gives
the raw text and confidence tesseract reports for that crop; segments whose
stripped text is empty are dropped (`if (!ch) continue`). -/
def lettersOf (oracle : Seg → List Char × ℚ) (chosen : List Seg) : List GlyphL :=
  chosen.filterMap fun seg =>
    match stripAZ ((oracle seg).1.map Char.toUpper) with
    | [] => none
    | c :: _ => some ⟨c, (oracle seg).2, seg.width⟩

/-- Search of src/unnamed/part_001 lines 244 to 247 generalized over the
running state: index of the first minimum-confidence glyph. -/
def minConfIdxAux : List GlyphL → ℚ → Nat → Nat → Nat
  | [], _, _, best => best
  | g :: rest, bconf, i, best =>
    if g.conf < bconf then minConfIdxAux rest g.conf (i + 1) i
    else minConfIdxAux rest bconf (i + 1) best

/-- First index of the minimum-confidence glyph, src/unnamed/part_001 lines
244 to 247 (strict comparison, so the earliest minimum wins). -/
def minConfIdx : List GlyphL → Nat
  | [] => 0
  | g :: rest => minConfIdxAux rest g.conf 1 0

/-- The auxiliary index search stays below the total length. -/
theorem minConfIdxAux_lt (rest : List GlyphL) :
    ∀ (bconf : ℚ) (i best : Nat), best < i →
      minConfIdxAux rest bconf i best < i + rest.length := by
  induction rest with
  | nil =>
    intro bconf i best hb
    simpa [minConfIdxAux] using Nat.lt_of_lt_of_le hb (Nat.le_add_right i 0)
  | cons g rest ih =>
    intro bconf i best hb
    simp only [minConfIdxAux]
    split
    · have := ih g.conf (i + 1) i (Nat.lt_succ_self i)
      simpa [Nat.add_assoc, Nat.add_comm, Nat.add_left_comm] using this
    · have := ih bconf (i + 1) best (Nat.lt_succ_of_lt hb)
      simpa [Nat.add_assoc, Nat.add_comm, Nat.add_left_comm] using this

/-- The minimum-confidence index is a valid index of a nonempty list. -/
theorem minConfIdx_lt {l : List GlyphL} (h : l ≠ []) : minConfIdx l < l.length := by
  match l, h with
  | g :: rest, _ =>
    have := minConfIdxAux_lt rest g.conf 1 0 Nat.one_pos
    simpa [minConfIdx, Nat.add_comm] using this

/-- Fuel-based rendering of the while-loop of src/unnamed/part_001 lines 243
to 249: remove the first lowest-confidence glyph while more than 4 remain.
Each iteration of the source loop removes exactly one element (the removal
index is always valid, see minConfIdx_lt), so running the body at most
`l.length` times is exactly the while-loop. -/
def pruneLoop : Nat → List GlyphL → List GlyphL
  | 0, l => l
  | n + 1, l =>
    if 4 < l.length then pruneLoop n (l.eraseIdx (minConfIdx l)) else l

/-- While-loop of src/unnamed/part_001 lines 243 to 249. -/
def pruneTo4 (l : List GlyphL) : List GlyphL := pruneLoop l.length l

/-- Median segment width of src/unnamed/part_001 lines 237 to 238. -/
def medWidthOf (letters : List GlyphL) : Nat :=
  medianNat (letters.map fun l => l.width)

/-- Leading-C drop of src/unnamed/part_001 lines 240 to 242, applied only
when at least 5 glyphs remain. -/
def dropLeadC : List GlyphL → List GlyphL
  | [] => []
  | a :: rest =>
    if 5 ≤ (a :: rest).length ∧ a.ch = 'C' ∧ a.conf < 12 then rest else a :: rest

/-- Rounding of `Math.round` on an exact rational: floor of q + 1/2 (rounds
halves toward positive infinity, as JavaScript does). -/
def ratRound (q : ℚ) : ℤ := ⌊q + 1 / 2⌋

/-- Glyph post-filter and final text of src/unnamed/part_001 lines 236 to
253: empty letter list short-circuit, median width, leading-C drop, prune to
4 by confidence, then filter by confidence at least 8 and width at least 0.6
times the median width (read exactly as 5 * width >= 3 * medW; skipped when
the median is 0), concatenate the characters and round the mean confidence. -/
def segGlyphText (letters : List GlyphL) : List Char × ℚ :=
  if letters.isEmpty then ([], 0)
  else
    let medW := medWidthOf letters
    let r1 := dropLeadC letters
    let r2 := pruneTo4 r1
    let r3 := r2.filter fun g =>
      decide (8 ≤ g.conf) && (if medW = 0 then true else decide (3 * medW ≤ 5 * g.width))
    (r3.map fun g => g.ch,
      if r3.isEmpty then 0
      else ((ratRound ((r3.map fun g => g.conf).sum / r3.length) : ℤ) : ℚ))

/-- Segmentation core of runOcrSegmented, src/unnamed/part_001 lines 163 to
253, starting from the already preprocessed and binarized image (the Jimp
preprocessing of lines 149 to 161 is an external collaborator); the per-crop
engine results are given by the oracle. -/
def runOcrSegmentedCore (img : GreyImg) (oracle : Seg → List Char × ℚ) : Cand :=
  let segs := segScan img.width (wThreshOf img.width) (isInkCol img)
  let segs2 := afterMerge segs
  let chosen := chosenSegs segs2
  let letters := lettersOf oracle chosen
  let r := segGlyphText letters
  ⟨r.1, r.2, false⟩

/-- Ink test of the synthetic binarized image: column x is ink when it lies
in one of the given column intervals. -/
def inkAt (cols : List (Nat × Nat)) (x : Nat) : Bool :=
  cols.any fun c => decide (c.1 ≤ x) && decide (x ≤ c.2)

/-- Synthetic binarized image with the given ink column intervals on a clean
background: ink pixels are black (0), background pixels white (255). -/
def synthImg (w h : Nat) (cols : List (Nat × Nat)) : GreyImg :=
  ⟨w, h, fun x _ => if inkAt cols x then 0 else 255⟩

/-- Well-separatedness of column intervals from position p on: ordered,
nonempty, separated by at least one background column and followed by at
least one background column before the right edge. -/
def SepCols (w : Nat) : Nat → List (Nat × Nat) → Prop
  | _, [] => True
  | p, c :: rest => p ≤ c.1 ∧ c.1 ≤ c.2 ∧ c.2 + 1 < w ∧ SepCols w (c.2 + 2) rest

/-- Folding the scan over background columns leaves a closed state unchanged. -/
theorem foldl_scan_gap (wTh : Nat) (ink : Nat → Bool) (l : List Nat) (segs : List Seg)
    (h : ∀ x ∈ l, ink x = false) :
    l.foldl (scanStep wTh ink) (none, segs) = (none, segs) := by
  induction l with
  | nil => rfl
  | cons a l ih =>
    rw [List.foldl_cons]
    have ha : ink a = false := h a (List.mem_cons_self a l)
    simp only [scanStep, ha, Bool.false_eq_true, if_false]
    exact ih fun x hx => h x (List.mem_cons_of_mem a hx)

/-- Folding the scan over ink columns keeps an open run unchanged. -/
theorem foldl_scan_ink (wTh : Nat) (ink : Nat → Bool) (l : List Nat) (s : Nat)
    (segs : List Seg) (h : ∀ x ∈ l, ink x = true) :
    l.foldl (scanStep wTh ink) (some s, segs) = (some s, segs) := by
  induction l with
  | nil => rfl
  | cons a l ih =>
    rw [List.foldl_cons]
    have ha : ink a = true := h a (List.mem_cons_self a l)
    simp only [scanStep, ha, if_true]
    exact ih fun x hx => h x (List.mem_cons_of_mem a hx)

/-- Splitting of a unit-step range. -/
theorem range'_split (s a b : Nat) :
    List.range' s (a + b) = List.range' s a ++ List.range' (s + a) b := by
  have h := List.range'_append s a b 1
  simp only [Nat.one_mul] at h
  rw [Nat.add_comm b a] at h
  exact h.symm

/-- Bounds carried by the separation predicate. -/
theorem SepCols_bounds (w : Nat) (cols : List (Nat × Nat)) :
    ∀ p, SepCols w p cols → ∀ c ∈ cols, p ≤ c.1 ∧ c.1 ≤ c.2 ∧ c.2 + 1 < w := by
  induction cols with
  | nil =>
    intro p _ c hc
    simp at hc
  | cons a rest ih =>
    intro p hsep c hc
    simp only [SepCols] at hsep
    obtain ⟨h1, h2, h3, hsep'⟩ := hsep
    rcases List.mem_cons.mp hc with rfl | hc'
    · exact ⟨h1, h2, h3⟩
    · have h4 := ih (a.2 + 2) hsep' c hc'
      exact ⟨by omega, h4.2.1, h4.2.2⟩

/-- Main loop invariant of the projection scan: over a range holding exactly
the given well-separated ink intervals, each wide enough for the width
threshold, the fold appends exactly one segment per interval and ends with no
open run. -/
theorem foldl_scan_intervals (w wTh : Nat) (ink : Nat → Bool)
    (cols : List (Nat × Nat)) :
    ∀ (p : Nat) (segs : List Seg),
    p ≤ w →
    SepCols w p cols →
    (∀ x, p ≤ x → x < w → (ink x = true ↔ ∃ c ∈ cols, c.1 ≤ x ∧ x ≤ c.2)) →
    (∀ c ∈ cols, wTh ≤ c.2 - c.1 + 1) →
    (List.range' p (w - p)).foldl (scanStep wTh ink) (none, segs)
      = (none, segs ++ cols.map fun c => Seg.mk c.1 c.2 (c.2 - c.1 + 1)) := by
  induction cols with
  | nil =>
    intro p segs hpw _ hink _
    rw [foldl_scan_gap]
    · simp
    · intro x hx
      rw [List.mem_range'_1] at hx
      cases hx2 : ink x
      · rfl
      · exfalso
        have hx3 := (hink x hx.1 (by omega)).mp hx2
        simp at hx3
  | cons c rest ih =>
    intro p segs hpw hsep hink hwid
    simp only [SepCols] at hsep
    obtain ⟨hps, hse, hew, hsep'⟩ := hsep
    have hrest := SepCols_bounds w rest (c.2 + 2) hsep'
    have e1 : w - p = (c.1 - p) + ((c.2 + 1 - c.1) + (1 + (w - (c.2 + 2)))) := by
      omega
    rw [e1, range'_split, range'_split, range'_split]
    have e2 : p + (c.1 - p) = c.1 := by omega
    rw [e2]
    have e3 : c.1 + (c.2 + 1 - c.1) = c.2 + 1 := by omega
    rw [e3]
    have e4 : c.2 + 1 + 1 = c.2 + 2 := by omega
    rw [e4, List.range'_one]
    rw [List.foldl_append, List.foldl_append, List.foldl_append]
    have hgap1 : ∀ x ∈ List.range' p (c.1 - p), ink x = false := by
      intro x hx
      rw [List.mem_range'_1] at hx
      cases hx2 : ink x
      · rfl
      · exfalso
        have hx3 := (hink x hx.1 (by omega)).mp hx2
        obtain ⟨c', hc', hle, hge⟩ := hx3
        rcases List.mem_cons.mp hc' with rfl | hc''
        · omega
        · have := hrest c' hc''
          omega
    have hinkin : ∀ x, c.1 ≤ x → x ≤ c.2 → ink x = true := by
      intro x h1 h2
      exact (hink x (by omega) (by omega)).mpr ⟨c, List.mem_cons_self c rest, h1, h2⟩
    have hrun : List.range' c.1 (c.2 + 1 - c.1)
        = c.1 :: List.range' (c.1 + 1) (c.2 - c.1) := by
      have e5 : c.2 + 1 - c.1 = (c.2 - c.1) + 1 := by omega
      rw [e5, List.range'_succ]
    have hic : ink c.1 = true := hinkin c.1 (Nat.le_refl c.1) hse
    have hstep2 : List.foldl (scanStep wTh ink) (none, segs)
        (List.range' c.1 (c.2 + 1 - c.1)) = (some c.1, segs) := by
      rw [hrun, List.foldl_cons]
      simp only [scanStep, hic, if_true]
      refine foldl_scan_ink wTh ink _ c.1 segs fun x hx => ?_
      rw [List.mem_range'_1] at hx
      exact hinkin x (by omega) (by omega)
    have hbg : ink (c.2 + 1) = false := by
      cases hx2 : ink (c.2 + 1)
      · rfl
      · exfalso
        have hx3 := (hink (c.2 + 1) (by omega) (by omega)).mp hx2
        obtain ⟨c', hc', hle, hge⟩ := hx3
        rcases List.mem_cons.mp hc' with rfl | hc''
        · omega
        · have := hrest c' hc''
          omega
    have hwc : wTh ≤ c.2 - c.1 + 1 := hwid c (List.mem_cons_self c rest)
    have hstep3 : List.foldl (scanStep wTh ink) (some c.1, segs) [c.2 + 1]
        = (none, segs ++ [Seg.mk c.1 c.2 (c.2 - c.1 + 1)]) := by
      rw [List.foldl_cons, List.foldl_nil]
      simp only [scanStep, hbg, Bool.false_eq_true, if_false, Nat.add_sub_cancel,
        if_pos hwc]
    have hink' : ∀ x, c.2 + 2 ≤ x → x < w →
        (ink x = true ↔ ∃ c' ∈ rest, c'.1 ≤ x ∧ x ≤ c'.2) := by
      intro x hx1 hx2
      constructor
      · intro hxi
        obtain ⟨c', hc', hle, hge⟩ := (hink x (by omega) hx2).mp hxi
        rcases List.mem_cons.mp hc' with rfl | hc''
        · omega
        · exact ⟨c', hc'', hle, hge⟩
      · rintro ⟨c', hc', hle, hge⟩
        exact (hink x (by omega) hx2).mpr ⟨c', List.mem_cons_of_mem c hc', hle, hge⟩
    have hwid' : ∀ c' ∈ rest, wTh ≤ c'.2 - c'.1 + 1 :=
      fun c' hc' => hwid c' (List.mem_cons_of_mem c hc')
    rw [foldl_scan_gap wTh ink _ segs hgap1, hstep2, hstep3,
      ih (c.2 + 2) (segs ++ [Seg.mk c.1 c.2 (c.2 - c.1 + 1)]) (by omega) hsep'
        hink' hwid']
    simp

/-- The projection of the synthetic image is h on ink columns, 0 elsewhere. -/
theorem projOf_synth (w h : Nat) (cols : List (Nat × Nat)) (x : Nat) :
    projOf (synthImg w h cols) x = if inkAt cols x then h else 0 := by
  cases hx : inkAt cols x <;> simp [projOf, synthImg, hx]

/-- On an image of height at least 2, the ink-column test of the synthetic
image agrees with the interval test. -/
theorem isInkCol_synth (w h : Nat) (cols : List (Nat × Nat)) (hh : 2 ≤ h) (x : Nat) :
    isInkCol (synthImg w h cols) x = inkAt cols x := by
  have h50 : h / 50 < h := Nat.div_lt_self (by omega) (by omega)
  unfold isInkCol
  rw [projOf_synth]
  cases hx : inkAt cols x
  · simp only [hx, Bool.false_eq_true, if_false]
    simp [synthImg, rowThreshOf]
  · simp only [hx, if_true]
    simp only [synthImg, rowThreshOf]
    rw [decide_eq_true_eq, Nat.max_lt]
    exact ⟨by omega, h50⟩

/-- The projection scan of a synthetic image with well-separated, wide-enough
ink columns returns exactly one segment per column interval. -/
theorem segScan_synth (w h : Nat) (cols : List (Nat × Nat)) (hh : 2 ≤ h)
    (hsep : SepCols w 0 cols)
    (hwid : ∀ c ∈ cols, wThreshOf w ≤ c.2 - c.1 + 1) :
    segScan w (wThreshOf w) (isInkCol (synthImg w h cols))
      = cols.map fun c => Seg.mk c.1 c.2 (c.2 - c.1 + 1) := by
  have hink : ∀ x, 0 ≤ x → x < w →
      (isInkCol (synthImg w h cols) x = true ↔ ∃ c ∈ cols, c.1 ≤ x ∧ x ≤ c.2) := by
    intro x _ _
    rw [isInkCol_synth w h cols hh x]
    simp [inkAt]
  have hmain := foldl_scan_intervals w (wThreshOf w) (isInkCol (synthImg w h cols))
    cols 0 [] (Nat.zero_le w) hsep hink hwid
  rw [Nat.sub_zero] at hmain
  unfold segScan
  rw [List.range_eq_range', hmain]
  simp

/-- The prune loop does nothing on lists of at most 4 glyphs. -/
theorem pruneLoop_of_le4 (n : Nat) (l : List GlyphL) (h : ¬ 4 < l.length) :
    pruneLoop n l = l := by
  cases n with
  | zero => rfl
  | succ n => simp [pruneLoop, h]

/-- The while-loop of lines 243 to 249 does nothing on at most 4 glyphs. -/
theorem pruneTo4_of_le4 {l : List GlyphL} (h : ¬ 4 < l.length) : pruneTo4 l = l :=
  pruneLoop_of_le4 l.length l h

/-- The leading-C drop does nothing on fewer than 5 glyphs. -/
theorem dropLeadC_of_short {l : List GlyphL} (h : l.length < 5) : dropLeadC l = l := by
  cases l with
  | nil => rfl
  | cons a rest =>
    simp only [dropLeadC]
    rw [if_neg]
    intro hcon
    exact absurd hcon.1 (by omega)

/-- When every chosen segment yields a letter, the letter list has one entry
per segment. -/
theorem lettersOf_all_some (oracle : Seg → List Char × ℚ) (chosen : List Seg)
    (h : ∀ seg ∈ chosen, stripAZ ((oracle seg).1.map Char.toUpper) ≠ []) :
    (lettersOf oracle chosen).length = chosen.length := by
  induction chosen with
  | nil => rfl
  | cons seg rest ih =>
    have hhd := h seg (List.mem_cons_self seg rest)
    simp only [lettersOf, List.filterMap_cons]
    cases hms : stripAZ ((oracle seg).1.map Char.toUpper) with
    | nil => exact absurd hms hhd
    | cons c cs =>
      simp only [List.length_cons]
      have h2 := ih fun s hs => h s (List.mem_cons_of_mem seg hs)
      simp only [lettersOf] at h2
      rw [h2]

/-- A letter in the glyph list inherits confidence and width from its
segment. -/
theorem lettersOf_mem {oracle : Seg → List Char × ℚ} {chosen : List Seg}
    {g : GlyphL} (h : g ∈ lettersOf oracle chosen) :
    ∃ seg ∈ chosen, g.conf = (oracle seg).2 ∧ g.width = seg.width := by
  simp only [lettersOf, List.mem_filterMap] at h
  obtain ⟨seg, hseg, hmap⟩ := h
  refine ⟨seg, hseg, ?_⟩
  cases hms : stripAZ ((oracle seg).1.map Char.toUpper) with
  | nil => rw [hms] at hmap; cases hmap
  | cons c cs =>
    rw [hms] at hmap
    injection hmap with h2
    rw [← h2]
    exact ⟨rfl, rfl⟩

/-- Core of the amended C5 statement: on any image whose projection scan
returns exactly 4 segments in left-to-right order, if the engine reads each
chosen segment as a nonempty A-to-Z text with confidence at least 8 and each
segment is at least 0.6 times the median glyph width wide, the assembled text
has length 4. -/
theorem segCore_text_len4 (img : GreyImg) (oracle : Seg → List Char × ℚ)
    (s1 s2 s3 s4 : Seg)
    (hscan : segScan img.width (wThreshOf img.width) (isInkCol img) = [s1, s2, s3, s4])
    (hsort : s1.start ≤ s2.start ∧ s2.start ≤ s3.start ∧ s3.start ≤ s4.start)
    (hread : ∀ seg ∈ [s1, s2, s3, s4],
      stripAZ ((oracle seg).1.map Char.toUpper) ≠ [] ∧ 8 ≤ (oracle seg).2)
    (hmedw : ∀ seg ∈ [s1, s2, s3, s4],
      3 * medWidthOf (lettersOf oracle [s1, s2, s3, s4]) ≤ 5 * seg.width) :
    (runOcrSegmentedCore img oracle).text.length = 4 := by
  obtain ⟨h12, h23, h34⟩ := hsort
  have hpair : List.Pairwise (fun a b : Seg => decide (a.start ≤ b.start) = true)
      [s1, s2, s3, s4] := by
    refine List.Pairwise.cons ?_ (List.Pairwise.cons ?_
      (List.Pairwise.cons ?_ (List.Pairwise.cons ?_ List.Pairwise.nil)))
    · intro a ha
      rcases List.mem_cons.mp ha with rfl | ha
      · rw [decide_eq_true_eq]; omega
      rcases List.mem_cons.mp ha with rfl | ha
      · rw [decide_eq_true_eq]; omega
      rcases List.mem_cons.mp ha with rfl | ha
      · rw [decide_eq_true_eq]; omega
      · simp at ha
    · intro a ha
      rcases List.mem_cons.mp ha with rfl | ha
      · rw [decide_eq_true_eq]; omega
      rcases List.mem_cons.mp ha with rfl | ha
      · rw [decide_eq_true_eq]; omega
      · simp at ha
    · intro a ha
      rcases List.mem_cons.mp ha with rfl | ha
      · rw [decide_eq_true_eq]; omega
      · simp at ha
    · intro a ha
      simp at ha
  have hAM : afterMerge [s1, s2, s3, s4] = [s1, s2, s3, s4] := rfl
  have hchos : chosenSegs [s1, s2, s3, s4] = [s1, s2, s3, s4] := by
    unfold chosenSegs
    rw [List.mergeSort_of_sorted hpair]
    rfl
  have hlen : (lettersOf oracle [s1, s2, s3, s4]).length = 4 := by
    rw [lettersOf_all_some oracle _ fun seg hs => (hread seg hs).1]
    rfl
  have hpred : ∀ g ∈ lettersOf oracle [s1, s2, s3, s4],
      (decide (8 ≤ g.conf) &&
        (if medWidthOf (lettersOf oracle [s1, s2, s3, s4]) = 0 then true
         else decide (3 * medWidthOf (lettersOf oracle [s1, s2, s3, s4])
            ≤ 5 * g.width))) = true := by
    intro g hg
    obtain ⟨seg, hseg, hconf, hwidth⟩ := lettersOf_mem hg
    rw [Bool.and_eq_true]
    constructor
    · rw [decide_eq_true_eq, hconf]
      exact (hread seg hseg).2
    · by_cases hm : medWidthOf (lettersOf oracle [s1, s2, s3, s4]) = 0
      · rw [if_pos hm]
      · rw [if_neg hm, decide_eq_true_eq, hwidth]
        exact hmedw seg hseg
  have hne : (lettersOf oracle [s1, s2, s3, s4]).isEmpty = false := by
    cases hI : (lettersOf oracle [s1, s2, s3, s4]).isEmpty
    · rfl
    · rw [List.isEmpty_iff] at hI
      rw [hI] at hlen
      simp at hlen
  simp only [runOcrSegmentedCore]
  rw [hscan, hAM, hchos]
  simp only [segGlyphText, hne, Bool.false_eq_true, if_false]
  rw [dropLeadC_of_short (by rw [hlen]; omega)]
  rw [pruneTo4_of_le4 (by rw [hlen]; omega)]
  rw [List.filter_eq_self.mpr hpred]
  simp only [List.length_map]
  exact hlen

/-- Counterexample to C5: a synthetic binarized image (45 by 4) with exactly 4
well-separated ink columns, each of width at least max(6, floor(45 * 0.02)) = 6,
on a clean background.  The projection scan does produce exactly 4 segments,
but even with an engine that reads every crop perfectly (a letter with
confidence 90), the assembled text has length 2, not 4: the two width-6
glyphs are below 0.6 times the median glyph width 11 and are removed by the
post-filter of lines 250 to 251. -/
theorem c5_counterexample :
    (∀ c ∈ [((0 : Nat), (5 : Nat)), (10, 20), (24, 34), (38, 43)],
      wThreshOf 45 ≤ c.2 - c.1 + 1) ∧
    (segScan 45 (wThreshOf 45)
      (isInkCol (synthImg 45 4 [(0, 5), (10, 20), (24, 34), (38, 43)]))).length = 4 ∧
    (runOcrSegmentedCore (synthImg 45 4 [(0, 5), (10, 20), (24, 34), (38, 43)])
      (fun _ => (['A'], 90))).text.length = 2 := by
  refine ⟨?_, ?_, ?_⟩ <;> decide

/-- C5 (amended): for every synthetic binarized image of height at least 2
containing exactly 4 well-separated ink columns, each of width at least
max(6, floor(imageWidth * 0.02)), on a clean background, the projection scan
produces exactly 4 segments (one per column) before glyph-count pruning; and
if the recognition engine additionally returns a nonempty A-to-Z reading with
confidence at least 8 for each of the 4 chosen segments and each segment is
at least 0.6 times the median glyph width wide, the assembled text has
length 4. -/
theorem c5_segmentation_four_columns
    (w h : Nat) (c1 c2 c3 c4 : Nat × Nat) (oracle : Seg → List Char × ℚ)
    (hh : 2 ≤ h)
    (hsep : SepCols w 0 [c1, c2, c3, c4])
    (hwid : ∀ c ∈ [c1, c2, c3, c4], wThreshOf w ≤ c.2 - c.1 + 1)
    (hread : ∀ seg ∈ [Seg.mk c1.1 c1.2 (c1.2 - c1.1 + 1),
        Seg.mk c2.1 c2.2 (c2.2 - c2.1 + 1), Seg.mk c3.1 c3.2 (c3.2 - c3.1 + 1),
        Seg.mk c4.1 c4.2 (c4.2 - c4.1 + 1)],
      stripAZ ((oracle seg).1.map Char.toUpper) ≠ [] ∧ 8 ≤ (oracle seg).2)
    (hmedw : ∀ seg ∈ [Seg.mk c1.1 c1.2 (c1.2 - c1.1 + 1),
        Seg.mk c2.1 c2.2 (c2.2 - c2.1 + 1), Seg.mk c3.1 c3.2 (c3.2 - c3.1 + 1),
        Seg.mk c4.1 c4.2 (c4.2 - c4.1 + 1)],
      3 * medWidthOf (lettersOf oracle [Seg.mk c1.1 c1.2 (c1.2 - c1.1 + 1),
        Seg.mk c2.1 c2.2 (c2.2 - c2.1 + 1), Seg.mk c3.1 c3.2 (c3.2 - c3.1 + 1),
        Seg.mk c4.1 c4.2 (c4.2 - c4.1 + 1)]) ≤ 5 * seg.width) :
    segScan w (wThreshOf w) (isInkCol (synthImg w h [c1, c2, c3, c4]))
      = [Seg.mk c1.1 c1.2 (c1.2 - c1.1 + 1), Seg.mk c2.1 c2.2 (c2.2 - c2.1 + 1),
         Seg.mk c3.1 c3.2 (c3.2 - c3.1 + 1), Seg.mk c4.1 c4.2 (c4.2 - c4.1 + 1)] ∧
    (runOcrSegmentedCore (synthImg w h [c1, c2, c3, c4]) oracle).text.length = 4 := by
  have hscan : segScan w (wThreshOf w) (isInkCol (synthImg w h [c1, c2, c3, c4]))
      = [Seg.mk c1.1 c1.2 (c1.2 - c1.1 + 1), Seg.mk c2.1 c2.2 (c2.2 - c2.1 + 1),
         Seg.mk c3.1 c3.2 (c3.2 - c3.1 + 1), Seg.mk c4.1 c4.2 (c4.2 - c4.1 + 1)] := by
    simpa using segScan_synth w h [c1, c2, c3, c4] hh hsep hwid
  refine ⟨hscan, ?_⟩
  have hsep' := hsep
  simp only [SepCols, and_true] at hsep'
  obtain ⟨ha1, ha2, ha3, hb1, hb2, hb3, hcf1, hcf2, hcf3, hd1, hd2, hd3⟩ := hsep'
  have hw : (synthImg w h [c1, c2, c3, c4]).width = w := rfl
  refine segCore_text_len4 _ oracle _ _ _ _ ?_ ?_ hread hmedw
  · rw [hw]
    exact hscan
  · refine ⟨?_, ?_, ?_⟩
    · show c1.1 ≤ c2.1
      omega
    · show c2.1 ≤ c3.1
      omega
    · show c3.1 ≤ c4.1
      omega

/-- Witness for c5_segmentation_four_columns: a 50 by 4 image with four ink
columns of width 10 and a perfectly reading engine. -/
theorem c5_segmentation_four_columns_witness :
    segScan 50 (wThreshOf 50)
        (isInkCol (synthImg 50 4 [(0, 9), (12, 21), (24, 33), (36, 45)]))
      = [Seg.mk 0 9 10, Seg.mk 12 21 10, Seg.mk 24 33 10, Seg.mk 36 45 10] ∧
    (runOcrSegmentedCore (synthImg 50 4 [(0, 9), (12, 21), (24, 33), (36, 45)])
      (fun _ => (['A'], 90))).text.length = 4 :=
  c5_segmentation_four_columns 50 4 (0, 9) (12, 21) (24, 33) (36, 45)
    (fun _ => (['A'], 90)) (by decide) (by simp [SepCols]) (by decide)
    (by decide) (by decide)

/-- Resource trace of the per-glyph recognition loop of runOcrSegmented,
src/unnamed/part_001 lines 214 to 234: one tesseract worker is created before
the loop; each iteration calls worker.recognize on a crop with no try/catch
around it, and worker.terminate() runs only after the whole loop.  The oracle
models each recognition call, `.error` when it throws (the exception then
propagates out of runOcrSegmented, skipping the terminate call); the result
counts how often the worker is released. -/
def segLoopReleases : List Seg → (Seg → Except Unit (List Char × ℚ)) → Nat
  | [], _ => 1
  | seg :: rest, oracle =>
    match oracle seg with
    | .error _ => 0
    | .ok _ => segLoopReleases rest oracle

/-- Resource trace of the basic handler of src/index.js lines 37 to 48: the
worker is created at line 37, recognize called at line 47, terminate at line
48 runs only on the success path (the catch at lines 55 to 58 does not
terminate the worker). -/
def basicReleases : Except Unit (List Char) → Nat
  | .error _ => 0
  | .ok _ => 1

/-- C9 (code bug): when a recognition call of a segmented attempt throws, the
engine handle is never released; runOcrSegmented creates the worker at line
214 and only terminates it at line 234 after the loop, with no try/catch
around the recognize calls at lines 224 to 233, so the release count is 0
instead of exactly 1 (and 1 on the success path); the basic src/index.js
handler likewise skips terminate when recognize throws. -/
theorem c9_release_skipped_on_throw :
    segLoopReleases [Seg.mk 0 9 10] (fun _ => Except.error ()) = 0 ∧
    segLoopReleases [Seg.mk 0 9 10] (fun _ => Except.ok (['A'], 90)) = 1 ∧
    basicReleases (Except.error ()) = 0 ∧
    basicReleases (Except.ok ['A']) = 1 ∧
    (0 : Nat) ≠ 1 := by
  exact ⟨rfl, rfl, rfl, rfl, by decide⟩

/-- Every glyph letter recorded by the segmented path carries an uppercase
letter A to Z (it is the first character of a stripped engine reading,
src/unnamed/part_001 lines 229 to 232). -/
theorem lettersOf_ch_AZ {oracle : Seg → List Char × ℚ} {chosen : List Seg}
    {g : GlyphL} (h : g ∈ lettersOf oracle chosen) : 'A' ≤ g.ch ∧ g.ch ≤ 'Z' := by
  simp only [lettersOf, List.mem_filterMap] at h
  obtain ⟨seg, hseg, hmap⟩ := h
  cases hms : stripAZ ((oracle seg).1.map Char.toUpper) with
  | nil => rw [hms] at hmap; cases hmap
  | cons c cs =>
    rw [hms] at hmap
    injection hmap with h2
    have hc : c ∈ stripAZ ((oracle seg).1.map Char.toUpper) := by
      rw [hms]
      exact List.mem_cons_self c cs
    have h3 := stripAZ_mem hc
    rw [← h2]
    exact h3

/-- The leading-C drop only removes glyphs. -/
theorem dropLeadC_subset {l : List GlyphL} {g : GlyphL} (h : g ∈ dropLeadC l) :
    g ∈ l := by
  cases l with
  | nil => simp [dropLeadC] at h
  | cons a rest =>
    simp only [dropLeadC] at h
    split at h
    · exact List.mem_cons_of_mem a h
    · exact h

/-- The prune loop only removes glyphs. -/
theorem pruneLoop_subset (n : Nat) :
    ∀ (l : List GlyphL) {g : GlyphL}, g ∈ pruneLoop n l → g ∈ l := by
  induction n with
  | zero => intro l g h; exact h
  | succ n ih =>
    intro l g h
    simp only [pruneLoop] at h
    split at h
    · exact List.eraseIdx_subset _ _ (ih _ h)
    · exact h

/-- The while-loop of lines 243 to 249 only removes glyphs. -/
theorem pruneTo4_subset {l : List GlyphL} {g : GlyphL} (h : g ∈ pruneTo4 l) :
    g ∈ l :=
  pruneLoop_subset l.length l h

/-- Every character of the assembled segmented text comes from a recorded
glyph letter. -/
theorem segGlyphText_mem {letters : List GlyphL} {c : Char}
    (h : c ∈ (segGlyphText letters).1) : ∃ g ∈ letters, c = g.ch := by
  simp only [segGlyphText] at h
  split at h
  · simp at h
  · simp only [List.mem_map] at h
    obtain ⟨g, hg, heq⟩ := h
    refine ⟨g, ?_, heq.symm⟩
    have hg2 := (List.mem_filter.mp hg).1
    exact dropLeadC_subset (pruneTo4_subset hg2)

/-- Every character of the candidate text produced by the segmented path of
src/unnamed/part_001 is an uppercase letter A to Z. -/
theorem segCore_only_AZ (img : GreyImg) (oracle : Seg → List Char × ℚ) :
    ∀ c ∈ (runOcrSegmentedCore img oracle).text, 'A' ≤ c ∧ c ≤ 'Z' := by
  intro c hc
  simp only [runOcrSegmentedCore] at hc
  obtain ⟨g, hg, rfl⟩ := segGlyphText_mem hc
  exact lettersOf_ch_AZ hg

/-- The strategy loop returns the empty string or the text of one of the
attempt results. -/
theorem strategyLoop_shape (results : List Cand) :
    strategyLoop results = [] ∨ ∃ r ∈ results, strategyLoop results = r.text := by
  induction results with
  | nil => left; rfl
  | cons r rest ih =>
    by_cases hv : validCand r = true
    · right
      exact ⟨r, List.mem_cons_self r rest, by simp [strategyLoop, hv]⟩
    · have hv' : validCand r = false := by
        cases hvv : validCand r
        · rfl
        · exact absurd hvv hv
      rcases ih with h | ⟨r', hr', he⟩
      · left
        simp [strategyLoop, hv', h]
      · right
        exact ⟨r', List.mem_cons_of_mem r hr', by simp [strategyLoop, hv', he]⟩

/-- C4 (amended): every character of the candidate text produced by any
attempt of src/unnamed/part_001 — the whole-image runOcr selection as well as
the segmented runOcrSegmented path — is an uppercase letter A to Z (all other
characters are stripped), and consequently the solution string returned by
the part_001 handler when its attempt texts satisfy this invariant contains
only letters A to Z; the basic src/index.js variant, however, only trims the
engine text, so its solution can contain other characters (see
c4_counterexample). -/
theorem c4_candidates_only_AZ :
    (∀ d : TessData, ∀ c ∈ (runOcrSelect d).text, 'A' ≤ c ∧ c ≤ 'Z') ∧
    (∀ (img : GreyImg) (oracle : Seg → List Char × ℚ),
      ∀ c ∈ (runOcrSegmentedCore img oracle).text, 'A' ≤ c ∧ c ≤ 'Z') ∧
    (∀ (captcha : Option (List Char)) (results : List Cand),
      (∀ r ∈ results, ∀ c ∈ r.text, 'A' ≤ c ∧ c ≤ 'Z') →
      ∀ s, handleOcrMulti captcha (Except.ok results) = Resp.ok s →
      ∀ c ∈ s, 'A' ≤ c ∧ c ≤ 'Z') := by
  refine ⟨runOcrSelect_only_AZ, segCore_only_AZ, ?_⟩
  intro captcha results hres s hs c hc
  simp only [handleOcrMulti] at hs
  by_cases hcap : captchaFalsy captcha = true
  · rw [if_pos hcap] at hs
    injection hs with h2
    rw [← h2] at hc
    simp at hc
  · have hcap' : captchaFalsy captcha = false := by
      cases hcc : captchaFalsy captcha
      · rfl
      · exact absurd hcc hcap
    rw [hcap'] at hs
    simp only [Bool.false_eq_true, if_false] at hs
    injection hs with h2
    rw [← h2] at hc
    rcases strategyLoop_shape results with h | ⟨r, hr, he⟩
    · rw [h] at hc
      simp at hc
    · rw [he] at hc
      exact hres r hr c hc

/-- Witness for c4_candidates_only_AZ, exercising all three parts: a
whole-image selection, a segmented attempt on a one-column image, and the
handler solution for a valid four-letter attempt. -/
theorem c4_candidates_only_AZ_witness :
    ('A' ≤ 'B' ∧ 'B' ≤ 'Z') ∧ ('A' ≤ 'A' ∧ 'A' ≤ 'Z') ∧ ('A' ≤ 'C' ∧ 'C' ≤ 'Z') :=
  ⟨c4_candidates_only_AZ.1 ⟨['B', '!'], 20, [], []⟩ 'B' (by decide),
   c4_candidates_only_AZ.2.1 (synthImg 45 4 [(0, 9)]) (fun _ => (['A'], 90)) 'A'
     (by decide),
   c4_candidates_only_AZ.2.2 (some ['X']) [⟨['C', 'C', 'C', 'C'], 90, false⟩]
     (by decide) ['C', 'C', 'C', 'C'] (by decide) 'C' (by decide)⟩
